import Mathlib

/-!
Verification of the graph-execution core of `scrapegraphai`, centred on
`SmartScraperMultiLiteGraph` (src/scrapegraphai/graphs/smart_scraper_multi_lite_graph.py).

The orchestrator class itself is embedded from the source; the collaborating
engine pieces (`BaseGraph.execute`, `GraphIteratorNode`, `MergeAnswersNode`,
the input-expression parser of `BaseNode`) are not part of the excerpted
source tree and are modelled from the specification, as marked on each
definition.
-/

namespace ScrapeGraph

/-- A value stored in the shared pipeline state (documents, answers,
lists of sources, ...). Python values are modelled as pure trees. -/
inductive Value where
  | str (s : String)
  | num (n : Nat)
  | listStr (l : List String)
  | listVal (l : List Value)

/-- The shared state mapping threaded through a graph run.
A Python `dict` is modelled as an association list where `lookup`
returns the first (most recent) binding for a key. -/
def State : Type := List (String × Value)

/-- Python's `dict.get(key, default)`. -/
def State.getD (st : State) (k : String) (default : Value) : Value :=
  (List.lookup k st).getD default

/-- Python's `dict[key] = v` (the new binding shadows any older one). -/
def State.insert (st : State) (k : String) (v : Value) : State :=
  (k, v) :: st

/-- Holds when `key in dict` fails, i.e. the key is absent. -/
def State.missing (st : State) (k : String) : Bool :=
  (List.lookup k st).isNone

/-! ## The orchestrator (`SmartScraperMultiLiteGraph`), embedded from the source -/

/-- Embeds line 105 of the source:
`return self.final_state.get("answer", "No answer found.")`. -/
def runResult (final_state : State) : Value :=
  final_state.getD "answer" (Value.str "No answer found.")

/-- Embeds line 103 of the source:
`inputs = {"user_prompt": self.prompt, "urls": self.source}`. -/
def runInputs (prompt : String) (source : List String) : State :=
  [("user_prompt", Value.str prompt), ("urls", Value.listStr source)]

/-- The input expression declared by the `GraphIteratorNode` built in
`_create_graph` (line 68 of the source): `input="user_prompt & urls"`. -/
def graphIteratorInput : String := "user_prompt & urls"

/-- Split a character list on the three-character separator `" & "`,
accumulating the current key in `acc` (in reverse). -/
def splitAmp : List Char → List Char → List String
  | [], acc => [String.mk acc.reverse]
  | ' ' :: '&' :: ' ' :: rest, acc => String.mk acc.reverse :: splitAmp rest []
  | c :: rest, acc => splitAmp rest (c :: acc)

/-- Modelled from the spec: the engine's `BaseNode` turns an input
expression such as `"user_prompt & urls"` into the list of state keys the
node requires before it may execute (a conjunction of keys). -/
def parseInputKeys (s : String) : List String :=
  splitAmp s.data []

/-- Embeds `SmartScraperMultiLiteGraph.run` (lines 95-105 of the source):
build the initial state from the stored prompt and source list, hand it to
`self.graph.execute` (abstracted as `g_exec`), and read the `"answer"` key
of the final state with the sentinel default. -/
def run (prompt : String) (source : List String) (g_exec : State → State) : Value :=
  runResult (g_exec (runInputs prompt source))

/-- The node identities of the graph assembled by `_create_graph`. -/
inductive NodeId where
  | graphIterator
  | mergeAnswers
  deriving DecidableEq, Repr, Fintype

/-- A directed graph of nodes: node list, edge list, entry point, name
(mirrors the `BaseGraph(nodes=..., edges=..., entry_point=..., graph_name=...)`
constructor call). -/
structure Graph where
  nodes : List NodeId
  edges : List (NodeId × NodeId)
  entry_point : NodeId
  graph_name : String
  deriving DecidableEq, Repr

/-- Embeds `SmartScraperMultiLiteGraph._create_graph` (lines 83-93 of the
source): two nodes, one edge from the iterator to the merge node, the
iterator as entry point. -/
def _create_graph : Graph :=
  { nodes := [NodeId.graphIterator, NodeId.mergeAnswers]
    edges := [(NodeId.graphIterator, NodeId.mergeAnswers)]
    entry_point := NodeId.graphIterator
    graph_name := "SmartScraperMultiLiteGraph" }

/-! ## The traversal engine (`BaseGraph.execute`), modelled from the spec -/

/-- Modelled from the spec: the destinations of the edges whose source is
the node that just completed, in the order the edges were declared ("for
each edge whose source just completed, execute its destination next, in
the order edges were declared"). -/
def successors (g : Graph) (c : NodeId) : List NodeId :=
  (g.edges.filter (fun e => e.1 = c)).map (fun e => e.2)

/-- A node is reachable when some path of declared edges leads from the
entry point to it. -/
def Reachable (g : Graph) (n : NodeId) : Prop :=
  Relation.ReflTransGen (fun a b => (a, b) ∈ g.edges) g.entry_point n

/-- Modelled from the spec: the node-visiting loop of `BaseGraph.execute`.
Take the next node of the work queue; if it has already run, skip it (the
spec's loop continues "until every reachable Node has run exactly once"),
otherwise run it and append the destinations of all its out-edges, in
declaration order, to the queue. `fuel` bounds the number of loop turns;
`visited` records the nodes already run, most recent first. -/
def traverseAux (g : Graph) : Nat → List NodeId → List NodeId → List NodeId
  | 0, _, visited => visited.reverse
  | _ + 1, [], visited => visited.reverse
  | fuel + 1, c :: queue, visited =>
    if c ∈ visited then traverseAux g fuel queue visited
    else traverseAux g fuel (queue ++ successors g c) (c :: visited)

/-- The total length of the out-edge lists of the not-yet-run nodes;
together with the queue length it bounds the remaining loop turns. -/
def unvisitedPotential (g : Graph) (visited : List NodeId) : Nat :=
  (Finset.univ.filter (fun n : NodeId => n ∉ visited)).sum
    (fun n => (successors g n).length)

/-- Modelled from the spec: the execution order of one `BaseGraph.execute`
run — work through the queue seeded with the entry point, with enough fuel
for the whole traversal. -/
def execOrder (g : Graph) : List NodeId :=
  traverseAux g (1 + unvisitedPotential g []) [g.entry_point] []

/-- Order consistency with the declared edges: every executed node other
than the entry point is preceded in the execution order by the source of
one of its in-edges. -/
def PrecededBy (g : Graph) (l : List NodeId) : Prop :=
  ∀ v1 b v2, l = v1 ++ b :: v2 → b ≠ g.entry_point →
    ∃ a ∈ v1, (a, b) ∈ g.edges

/-! ## The per-node run loop and `ExecutionInfo`, modelled from the spec -/

/-- One entry of the execution trace: node name and success flag
(elapsed time and usage counters are opaque to the properties below). -/
structure ExecRecord where
  node_name : String
  success : Bool
  deriving DecidableEq, Repr

/-- A unit of pipeline work: a name and a body that either updates the
state or fails with an error message. -/
structure NodeSpec where
  name : String
  body : State → Except String State

/-- The observable outcome of one `execute` call: the error re-signaled to
the caller (if any), the state as left by the run (never rolled back), and
the execution trace. -/
structure RunOutcome where
  error : Option String
  state : State
  exec_info : List ExecRecord

/-- Modelled from the spec: the node-running loop of `BaseGraph.execute`
over an already-ordered node list. Each node run appends exactly one trace
record; a failure stops the loop at once, records the failing node with a
`false` flag, keeps the state written so far, and re-signals the error. -/
def runNodes : List NodeSpec → State → RunOutcome
  | [], st => ⟨none, st, []⟩
  | n :: rest, st =>
    match n.body st with
    | Except.ok st2 =>
      let r := runNodes rest st2
      ⟨r.error, r.state, ⟨n.name, true⟩ :: r.exec_info⟩
    | Except.error e => ⟨some e, st, [⟨n.name, false⟩]⟩

/-- The names of the nodes a run actually executes: every node up to and
including the first failing one. -/
def executedNames : List NodeSpec → State → List String
  | [], _ => []
  | n :: rest, st =>
    match n.body st with
    | Except.ok st2 => n.name :: executedNames rest st2
    | Except.error _ => [n.name]

/-! ## The fan-out node (`GraphIteratorNode`), modelled from the spec -/

/-- The outcome recorded for one source: the sub-pipeline's result value or
a failure marker carrying the error. -/
inductive Outcome where
  | success (v : Value)
  | failure (e : String)

/-- How one sub-pipeline run is folded into the per-source outcome list. -/
def Outcome.ofRun (r : Except String Value) : Outcome :=
  match r with
  | Except.ok v => Outcome.success v
  | Except.error e => Outcome.failure e

/-- Modelled from the spec: `GraphIteratorNode` runs one fresh sub-pipeline
per source, in order, and records each source's result or failure marker;
a failing source never stops the iteration over the remaining sources. -/
def runIterator (runSub : String → Except String Value) (sources : List String) :
    List Outcome :=
  sources.map (fun s => Outcome.ofRun (runSub s))

/-- Modelled from the spec: the `GraphIteratorNode` body as a graph node —
it reads `urls` from the state, fans out, and always succeeds, writing the
ordered outcome list to its declared output key `parsed_doc`. -/
def graphIteratorBody (runSub : String → Except String Value) (st : State) :
    Except String State :=
  match List.lookup "urls" st with
  | some (Value.listStr sources) =>
    Except.ok (st.insert "parsed_doc"
      (Value.listVal ((runIterator runSub sources).map
        (fun o => match o with
          | Outcome.success v => v
          | Outcome.failure e => Value.str e))))
  | _ => Except.error "missing urls"

/-! ## The merge node (`MergeAnswersNode`), modelled from the spec -/

/-- Modelled from the spec: `MergeAnswersNode` collapses the partial
outcomes into one answer via the external generation service (`llm`),
writing the defined sentinel when the partial-outcome sequence is empty. -/
def mergeAnswers (llm : String → List Value → Value) (user_prompt : String)
    (docs : List Value) : Value :=
  if docs.isEmpty then Value.str "No answer found."
  else llm user_prompt docs

/-! ## Object identity and deep copies (`__init__` lines 58-60) -/

/-- A heap of mutable Python objects: addresses below `next` are live.
Mutation of the object at one address is invisible at every other address,
which is exactly the aliasing model the deep-copy claims are about. -/
structure Heap where
  next : Nat
  mem : Nat → Option Value

/-- Read the object stored at an address. -/
def readAddr (h : Heap) (a : Nat) : Option Value :=
  h.mem a

/-- Mutation in place of the object at an address. -/
def writeAddr (h : Heap) (a : Nat) (v : Value) : Heap :=
  ⟨h.next, fun b => if b = a then some v else h.mem b⟩

/-- Allocate a fresh object. -/
def alloc (h : Heap) (v : Value) : Nat × Heap :=
  (h.next, ⟨h.next + 1, fun b => if b = h.next then some v else h.mem b⟩)

/-- Embeds `copy.deepcopy` / `safe_deepcopy`: a freshly allocated object whose
value equals the source object's current value and which shares no
structure with it (values are pure trees, so the copy is deep). -/
def deepcopy (h : Heap) (a : Nat) : Nat × Heap :=
  alloc h ((h.mem a).getD (Value.str ""))

/-- The result of `SmartScraperMultiLiteGraph.__init__`: the addresses of
`self.copy_config` and `self.copy_schema`, and the heap after the base
initializer ran. -/
structure InitResult where
  copy_config : Nat
  copy_schema : Nat
  heap : Heap

/-- Embeds `SmartScraperMultiLiteGraph.__init__` (lines 58-60 of the
source): first `self.copy_config = safe_deepcopy(config)`, then
`self.copy_schema = deepcopy(schema)`, and only then
`super().__init__(prompt, config, source, schema)`, whose effect on the
heap is an arbitrary sequence of in-place writes (`base_writes`). -/
def smartScraperInit (h : Heap) (config schema : Nat)
    (base_writes : List (Nat × Value)) : InitResult :=
  let c := deepcopy h config
  let s := deepcopy c.2 schema
  ⟨c.1, s.1, base_writes.foldl (fun h2 w => writeAddr h2 w.1 w.2) s.2⟩

/-- One sub-pipeline instance's owned copies: a fresh deep copy of the
configuration followed by a fresh deep copy of the schema. -/
def copyPair (h : Heap) (config schema : Nat) : (Nat × Nat) × Heap :=
  let c := deepcopy h config
  let s := deepcopy c.2 schema
  ((c.1, s.1), s.2)

/-- Modelled from the spec: the per-source copies taken inside
`GraphIteratorNode`'s fan-out — each of the `n` sub-pipeline instances
receives its own freshly allocated deep copy of the scraper configuration
and of the schema. Returns the per-source `(config, schema)` address pairs
and the heap after all allocations. -/
def fanoutCopies (h : Heap) (config schema : Nat) : Nat → List (Nat × Nat) × Heap
  | 0 => ([], h)
  | n + 1 =>
    let p := copyPair h config schema
    let rest := fanoutCopies p.2 config schema n
    (p.1 :: rest.1, rest.2)

/-- A two-object heap used to instantiate the aliasing theorems: address 0
holds a configuration object, address 1 a schema object. -/
def sampleHeap : Heap :=
  ⟨2, fun b => if b = 0 then some (Value.num 1) else
      if b = 1 then some (Value.num 2) else none⟩

/-- A three-node run whose middle node fails, used to instantiate the
failure-semantics theorems. -/
def demoNodes : List NodeSpec :=
  [⟨"A", fun st => Except.ok (st.insert "x" (Value.num 1))⟩,
   ⟨"B", fun _ => Except.error "boom"⟩,
   ⟨"C", fun st => Except.ok st⟩]

/-! # Theorems -/

/-- C1: if the final state produced by graph execution contains no
`"answer"` key, `run()` returns the sentinel string `"No answer found."`
rather than raising; when the key is present it returns the stored answer
value; and when the merge step ran on an empty partial-outcome sequence,
the stored answer is the sentinel, so `run()` returns the sentinel. -/
theorem runResult_sentinel_or_answer (final_state : State)
    (llm : String → List Value → Value) (user_prompt : String) :
    (final_state.missing "answer" = true →
      runResult final_state = Value.str "No answer found.") ∧
    (∀ v, List.lookup "answer" final_state = some v →
      runResult final_state = v) ∧
    runResult (final_state.insert "answer" (mergeAnswers llm user_prompt [])) =
      Value.str "No answer found." := by
  refine ⟨?_, ?_, ?_⟩
  · intro h
    have hn : List.lookup "answer" final_state = none :=
      Option.isNone_iff_eq_none.mp h
    simp [runResult, State.getD, hn]
  · intro v hv
    simp [runResult, State.getD, hv]
  · simp [runResult, State.getD, State.insert, mergeAnswers, List.lookup]

/-- Witness for C1 at concrete states: an empty final state yields the
sentinel, a state holding an answer yields that answer. -/
theorem runResult_sentinel_or_answer_witness :
    runResult [] = Value.str "No answer found." ∧
    runResult [("answer", Value.num 7)] = Value.num 7 := by
  refine ⟨(runResult_sentinel_or_answer [] (fun _ _ => Value.str "") "").1 rfl,
    (runResult_sentinel_or_answer [("answer", Value.num 7)]
      (fun _ _ => Value.str "") "").2.1 (Value.num 7) rfl⟩

/-- C3: `run()` hands graph execution the initial state
`{"user_prompt": prompt, "urls": source}`, whose keys are precisely the
input keys declared by the entry `GraphIteratorNode`
(`"user_prompt & urls"`), so every input key the entry node requires is
present; and `run()` returns the answer derived from the resulting final
state. -/
theorem run_supplies_entry_input_keys (prompt : String) (source : List String)
    (g_exec : State → State) :
    (runInputs prompt source).map Prod.fst = parseInputKeys graphIteratorInput ∧
    (∀ k ∈ parseInputKeys graphIteratorInput,
      (runInputs prompt source).missing k = false) ∧
    run prompt source g_exec = runResult (g_exec (runInputs prompt source)) := by
  refine ⟨rfl, ?_, rfl⟩
  intro k hk
  have hkeys : parseInputKeys graphIteratorInput = ["user_prompt", "urls"] := rfl
  rw [hkeys] at hk
  simp only [List.mem_cons, List.not_mem_nil, or_false] at hk
  rcases hk with rfl | rfl
  · rfl
  · rfl

/-- Witness for C3 at a concrete prompt and source list: both declared
input keys are supplied by the initial state. -/
theorem run_supplies_entry_input_keys_witness :
    (runInputs "p" ["u"]).missing "user_prompt" = false ∧
    (runInputs "p" ["u"]).missing "urls" = false := by
  refine ⟨(run_supplies_entry_input_keys "p" ["u"] id).2.1 "user_prompt" (by decide),
    (run_supplies_entry_input_keys "p" ["u"] id).2.1 "urls" (by decide)⟩

/-- C4: the graph built by `_create_graph` has the `GraphIteratorNode` as
its unique entry point, no edge targets the entry point, every non-entry
node appears as an edge destination, and the declared edge list
`[(iterator, merge)]` is consistent with the intended execution order. -/
theorem create_graph_structural_invariants :
    _create_graph.entry_point = NodeId.graphIterator ∧
    _create_graph.nodes = [NodeId.graphIterator, NodeId.mergeAnswers] ∧
    _create_graph.edges = [(NodeId.graphIterator, NodeId.mergeAnswers)] ∧
    _create_graph.edges.all
      (fun e => decide (e.2 ≠ _create_graph.entry_point)) = true ∧
    _create_graph.nodes.all
      (fun n => decide (n = _create_graph.entry_point) ||
        _create_graph.edges.any (fun e => decide (e.2 = n))) = true ∧
    execOrder _create_graph = [NodeId.graphIterator, NodeId.mergeAnswers] := by
  decide

/-- C6: the iterator's output over `N` sources is an ordered sequence of
exactly `N` per-source outcomes, and `outcome[i]` is the outcome of the
sub-pipeline run on `source[i]`. -/
theorem iterator_output_aligned (runSub : String → Except String Value)
    (sources : List String) :
    (runIterator runSub sources).length = sources.length ∧
    ∀ i : Nat, (runIterator runSub sources).get? i =
      (sources.get? i).map (fun s => Outcome.ofRun (runSub s)) := by
  constructor
  · simp [runIterator]
  · intro i
    simp [runIterator, List.get?_map]

/-- C7: when one source's sub-pipeline fails, the iterator still records a
failure marker for that source, every other source's outcome is exactly the
outcome of its own sub-pipeline run, the output keeps its full length, and
the iterator node itself still succeeds, so the enclosing graph run does
not abort. -/
theorem iterator_isolates_failure (runSub : String → Except String Value)
    (sources : List String) (prompt : String) (j : Nat) (e : String)
    (hj : ∃ s, sources.get? j = some s ∧ runSub s = Except.error e) :
    (runIterator runSub sources).length = sources.length ∧
    (runIterator runSub sources).get? j = some (Outcome.failure e) ∧
    (∀ i : Nat, i ≠ j → (runIterator runSub sources).get? i =
      (sources.get? i).map (fun s => Outcome.ofRun (runSub s))) ∧
    (∃ st2, graphIteratorBody runSub (runInputs prompt sources) =
      Except.ok st2) := by
  obtain ⟨s, hs, hfail⟩ := hj
  refine ⟨by simp [runIterator], ?_, ?_, ⟨_, rfl⟩⟩
  · have hm : (runIterator runSub sources).get? j =
        (sources.get? j).map (fun s => Outcome.ofRun (runSub s)) := by
      simp [runIterator, List.get?_map]
    rw [hm, hs]
    simp [Outcome.ofRun, hfail]
  · intro i _
    simp [runIterator, List.get?_map]

/-- Witness for C7: over sources `["u1", "u2"]` where the sub-pipeline for
`"u2"` fails, the output is `[success u1, failure marker]` and the iterator
node still succeeds. -/
theorem iterator_isolates_failure_witness :
    (runIterator (fun s => if s = "u2" then Except.error "boom"
      else Except.ok (Value.str s)) ["u1", "u2"]).get? 1 =
        some (Outcome.failure "boom") ∧
    (runIterator (fun s => if s = "u2" then Except.error "boom"
      else Except.ok (Value.str s)) ["u1", "u2"]).get? 0 =
        some (Outcome.success (Value.str "u1")) ∧
    (∃ st2, graphIteratorBody (fun s => if s = "u2" then Except.error "boom"
      else Except.ok (Value.str s)) (runInputs "list authors" ["u1", "u2"]) =
        Except.ok st2) := by
  have h := iterator_isolates_failure
    (fun s => if s = "u2" then Except.error "boom" else Except.ok (Value.str s))
    ["u1", "u2"] "list authors" 1 "boom" ⟨"u2", rfl, rfl⟩
  exact ⟨h.2.1, (h.2.2.1 0 (by decide)).trans rfl, h.2.2.2⟩

/-- C8: a node failure aborts traversal at once — after a successful
prefix, the failing node's error is re-signaled to the caller, no node
after it executes, exactly one failure-flagged record is appended for it,
and the state is exactly the state the prefix wrote, with no rollback. -/
theorem node_failure_aborts (good : List NodeSpec) (n : NodeSpec)
    (rest : List NodeSpec) (st0 : State) (e : String)
    (hok : (runNodes good st0).error = none)
    (hfail : n.body (runNodes good st0).state = Except.error e) :
    runNodes (good ++ n :: rest) st0 =
      ⟨some e, (runNodes good st0).state,
        (runNodes good st0).exec_info ++ [⟨n.name, false⟩]⟩ := by
  induction good generalizing st0 with
  | nil =>
    have hfail' : n.body st0 = Except.error e := hfail
    simp [runNodes, hfail']
  | cons g good ih =>
    cases hg : g.body st0 with
    | ok st1 =>
      have hok' : (runNodes good st1).error = none := by
        simpa [runNodes, hg] using hok
      have hfail' : n.body (runNodes good st1).state = Except.error e := by
        simpa [runNodes, hg] using hfail
      simp [runNodes, hg, ih st1 hok' hfail']
    | error e2 =>
      exfalso
      simp [runNodes, hg] at hok

/-- Witness for C8: in the three-node demo run the middle node fails, the
error is re-signaled, node `C` never executes, the trace holds exactly the
records for `A` (success) and `B` (failure), and `A`'s write survives. -/
theorem node_failure_aborts_witness :
    runNodes demoNodes [] =
      ⟨some "boom", [("x", Value.num 1)], [⟨"A", true⟩, ⟨"B", false⟩]⟩ := by
  have h := node_failure_aborts
    [⟨"A", fun st => Except.ok (st.insert "x" (Value.num 1))⟩]
    ⟨"B", fun _ => Except.error "boom"⟩ [⟨"C", fun st => Except.ok st⟩]
    [] "boom" rfl rfl
  exact h

/-- Each trace record's node name, in order, is the name of the node the
run actually executed at that position. -/
theorem runNodes_map_names (nodes : List NodeSpec) (st : State) :
    (runNodes nodes st).exec_info.map ExecRecord.node_name =
      executedNames nodes st := by
  induction nodes generalizing st with
  | nil => rfl
  | cons n rest ih =>
    cases hb : n.body st with
    | ok st2 => simp [runNodes, executedNames, hb, ih st2]
    | error e2 => simp [runNodes, executedNames, hb]

/-- A failed run's trace ends with a record whose failure flag is set. -/
theorem runNodes_error_flag (nodes : List NodeSpec) (st : State) (e : String) :
    (runNodes nodes st).error = some e →
    ∃ pre rec, (runNodes nodes st).exec_info = pre ++ [rec] ∧
      rec.success = false := by
  induction nodes generalizing st with
  | nil =>
    intro he
    simp [runNodes] at he
  | cons n rest ih =>
    cases hb : n.body st with
    | ok st2 =>
      intro he
      have he' : (runNodes rest st2).error = some e := by
        simpa [runNodes, hb] using he
      obtain ⟨pre, rec, h1, h2⟩ := ih st2 he'
      exact ⟨⟨n.name, true⟩ :: pre, rec, by simp [runNodes, hb, h1], h2⟩
    | error e2 =>
      intro _
      exact ⟨[], ⟨n.name, false⟩, by simp [runNodes, hb], rfl⟩

/-- C9: each node execution appends exactly one record to the trace — the
trace's records are in bijection with the executed nodes, so its length
equals the number of nodes actually executed — and a failed run's trace
still contains a record for the failing node with its failure flag set. -/
theorem exec_info_one_record_per_node (nodes : List NodeSpec) (st : State) :
    (runNodes nodes st).exec_info.map ExecRecord.node_name =
      executedNames nodes st ∧
    (runNodes nodes st).exec_info.length = (executedNames nodes st).length ∧
    ∀ e, (runNodes nodes st).error = some e →
      ∃ pre rec, (runNodes nodes st).exec_info = pre ++ [rec] ∧
        rec.success = false := by
  refine ⟨runNodes_map_names nodes st, ?_, fun e => runNodes_error_flag nodes st e⟩
  rw [← runNodes_map_names nodes st, List.length_map]

/-- Witness for C9: in the three-node demo run exactly two nodes execute,
the trace has exactly their two records, and it ends with the failing
node's failure-flagged record. -/
theorem exec_info_one_record_per_node_witness :
    (runNodes demoNodes []).exec_info.map ExecRecord.node_name =
      executedNames demoNodes [] ∧
    (runNodes demoNodes []).exec_info.length = 2 ∧
    ∃ pre rec, (runNodes demoNodes []).exec_info = pre ++ [rec] ∧
      rec.success = false := by
  have h := exec_info_one_record_per_node demoNodes []
  exact ⟨h.1, h.2.1.trans rfl, h.2.2 "boom" rfl⟩

/-- The two addresses a `copyPair` allocates are the next two fresh ones. -/
theorem copyPair_fst (h : Heap) (config schema : Nat) :
    (copyPair h config schema).1 = (h.next, h.next + 1) := rfl

/-- A `copyPair` advances the allocation frontier by two. -/
theorem copyPair_next (h : Heap) (config schema : Nat) :
    (copyPair h config schema).2.next = h.next + 2 := rfl

/-- A `copyPair` leaves every previously live address untouched. -/
theorem copyPair_mem_low (h : Heap) (config schema b : Nat) (hb : b < h.next) :
    (copyPair h config schema).2.mem b = h.mem b := by
  have h1 : b ≠ h.next := by omega
  have h2 : b ≠ h.next + 1 := by omega
  simp [copyPair, deepcopy, alloc, h1, h2]

/-- The configuration copy holds the configuration's current value. -/
theorem copyPair_mem_config (h : Heap) (config schema : Nat) (vc : Value)
    (hvc : h.mem config = some vc) :
    (copyPair h config schema).2.mem h.next = some vc := by
  have h1 : h.next ≠ h.next + 1 := by omega
  simp [copyPair, deepcopy, alloc, h1, hvc]

/-- The schema copy holds the schema's current value. -/
theorem copyPair_mem_schema (h : Heap) (config schema : Nat) (vs : Value)
    (hs : schema < h.next) (hvs : h.mem schema = some vs) :
    (copyPair h config schema).2.mem (h.next + 1) = some vs := by
  have h1 : schema ≠ h.next := by omega
  simp [copyPair, deepcopy, alloc, h1, hvs]

/-- Unfolding of one fan-out step. -/
theorem fanoutCopies_succ (h : Heap) (config schema n : Nat) :
    fanoutCopies h config schema (n + 1) =
      ((copyPair h config schema).1 ::
        (fanoutCopies (copyPair h config schema).2 config schema n).1,
       (fanoutCopies (copyPair h config schema).2 config schema n).2) := rfl

/-- The fan-out allocates exactly the next `2n` fresh addresses, one
config/schema pair per source, never disturbs previously live objects, and
every copy holds the original object's value. -/
theorem fanoutCopies_spec (config schema : Nat) (vc vs : Value) :
    ∀ (n : Nat) (h : Heap), config < h.next → schema < h.next →
      h.mem config = some vc → h.mem schema = some vs →
      (fanoutCopies h config schema n).1.length = n ∧
      (fanoutCopies h config schema n).2.next = h.next + 2 * n ∧
      (∀ b, b < h.next →
        (fanoutCopies h config schema n).2.mem b = h.mem b) ∧
      ((fanoutCopies h config schema n).1.bind (fun p => [p.1, p.2])) =
        List.range' h.next (2 * n) ∧
      (∀ p ∈ (fanoutCopies h config schema n).1,
        (fanoutCopies h config schema n).2.mem p.1 = some vc ∧
        (fanoutCopies h config schema n).2.mem p.2 = some vs) := by
  intro n
  induction n with
  | zero =>
    intro h hc hs hvc hvs
    exact ⟨rfl, by simp [fanoutCopies], fun b _ => rfl,
      by simp [fanoutCopies], by simp [fanoutCopies]⟩
  | succ n ih =>
    intro h hc hs hvc hvs
    have hnext := copyPair_next h config schema
    have hc2 : config < (copyPair h config schema).2.next := by omega
    have hs2 : schema < (copyPair h config schema).2.next := by omega
    have hvc2 : (copyPair h config schema).2.mem config = some vc := by
      rw [copyPair_mem_low h config schema config hc]
      exact hvc
    have hvs2 : (copyPair h config schema).2.mem schema = some vs := by
      rw [copyPair_mem_low h config schema schema hs]
      exact hvs
    obtain ⟨A, B, C, D, E⟩ :=
      ih (copyPair h config schema).2 hc2 hs2 hvc2 hvs2
    refine ⟨?_, ?_, ?_, ?_, ?_⟩
    · show ((copyPair h config schema).1 ::
        (fanoutCopies (copyPair h config schema).2 config schema n).1).length
          = n + 1
      simp [A]
    · show (fanoutCopies (copyPair h config schema).2 config schema n).2.next
        = h.next + 2 * (n + 1)
      omega
    · intro b hb
      show (fanoutCopies (copyPair h config schema).2 config schema n).2.mem b
        = h.mem b
      rw [C b (by omega), copyPair_mem_low h config schema b hb]
    · show (((copyPair h config schema).1 ::
        (fanoutCopies (copyPair h config schema).2 config schema n).1).bind
          (fun p => [p.1, p.2])) = List.range' h.next (2 * (n + 1))
      have h22 : 2 * (n + 1) = 2 * n + 2 := by ring
      show ([h.next, h.next + 1] ++
        ((fanoutCopies (copyPair h config schema).2 config schema n).1.bind
          (fun p => [p.1, p.2]))) = List.range' h.next (2 * (n + 1))
      rw [D, hnext, h22]
      rfl
    · intro p hp
      rcases List.mem_cons.mp hp with hp1 | hp2
      · constructor
        · show (fanoutCopies (copyPair h config schema).2 config schema n).2.mem
            p.1 = some vc
          rw [hp1, copyPair_fst]
          rw [C h.next (by omega)]
          exact copyPair_mem_config h config schema vc hvc
        · show (fanoutCopies (copyPair h config schema).2 config schema n).2.mem
            p.2 = some vs
          rw [hp1, copyPair_fst]
          rw [C (h.next + 1) (by omega)]
          exact copyPair_mem_schema h config schema vs hs hvs
      · exact E p hp2

/-- C2: the per-source fan-out hands every sub-pipeline an independently
allocated pair of deep copies of the caller's configuration and schema —
the `2n` copy addresses are pairwise distinct and distinct from the
originals, each copy holds the original's value, the originals are left
untouched, and an in-place mutation through one address is invisible at
every other address, so no sub-pipeline run's mutation can be observed by
another run or by the caller. -/
theorem fanout_copies_isolated (h : Heap) (config schema : Nat) (n : Nat)
    (vc vs : Value) (hc : config < h.next) (hs : schema < h.next)
    (hvc : h.mem config = some vc) (hvs : h.mem schema = some vs) :
    (fanoutCopies h config schema n).1.length = n ∧
    ((fanoutCopies h config schema n).1.bind (fun p => [p.1, p.2])).Nodup ∧
    (∀ p ∈ (fanoutCopies h config schema n).1,
      p.1 ≠ config ∧ p.1 ≠ schema ∧ p.2 ≠ config ∧ p.2 ≠ schema) ∧
    (∀ p ∈ (fanoutCopies h config schema n).1,
      (fanoutCopies h config schema n).2.mem p.1 = some vc ∧
      (fanoutCopies h config schema n).2.mem p.2 = some vs) ∧
    ((fanoutCopies h config schema n).2.mem config = some vc ∧
     (fanoutCopies h config schema n).2.mem schema = some vs) ∧
    (∀ a v b, b ≠ a →
      (writeAddr (fanoutCopies h config schema n).2 a v).mem b =
        (fanoutCopies h config schema n).2.mem b) := by
  obtain ⟨A, B, C, D, E⟩ := fanoutCopies_spec config schema vc vs n h hc hs hvc hvs
  have haddr : ∀ p ∈ (fanoutCopies h config schema n).1,
      h.next ≤ p.1 ∧ h.next ≤ p.2 := by
    intro p hp
    have h1 : p.1 ∈ (fanoutCopies h config schema n).1.bind
        (fun p => [p.1, p.2]) := by
      exact List.mem_bind.mpr ⟨p, hp, by simp⟩
    have h2 : p.2 ∈ (fanoutCopies h config schema n).1.bind
        (fun p => [p.1, p.2]) := by
      exact List.mem_bind.mpr ⟨p, hp, by simp⟩
    rw [D] at h1 h2
    exact ⟨(List.mem_range'_1.mp h1).1, (List.mem_range'_1.mp h2).1⟩
  refine ⟨A, ?_, ?_, E,
    ⟨(C config hc).trans hvc, (C schema hs).trans hvs⟩, ?_⟩
  · rw [D]
    exact List.nodup_range' h.next (2 * n)
  · intro p hp
    obtain ⟨ha1, ha2⟩ := haddr p hp
    exact ⟨by omega, by omega, by omega, by omega⟩
  · intro a v b hb
    simp [writeAddr, hb]

/-- Witness for C2 at a concrete two-object heap and two sources: both
copy pairs are freshly allocated, all four copy addresses are distinct,
each copy holds the original value, and the caller's objects at addresses
0 and 1 are untouched. -/
theorem fanout_copies_isolated_witness :
    (fanoutCopies sampleHeap 0 1 2).1.length = 2 ∧
    ((fanoutCopies sampleHeap 0 1 2).1.bind (fun p => [p.1, p.2])).Nodup ∧
    (fanoutCopies sampleHeap 0 1 2).2.mem 0 = some (Value.num 1) ∧
    (fanoutCopies sampleHeap 0 1 2).2.mem 1 = some (Value.num 2) := by
  have h := fanout_copies_isolated sampleHeap 0 1 2 (Value.num 1) (Value.num 2)
    (by decide) (by decide) rfl rfl
  exact ⟨h.1, h.2.1, h.2.2.2.2.1.1, h.2.2.2.2.1.2⟩

/-- Writes through addresses other than `a` leave the object at `a`
untouched. -/
theorem foldl_writeAddr_untouched (writes : List (Nat × Value)) :
    ∀ (h : Heap) (a : Nat), (∀ w ∈ writes, w.1 ≠ a) →
      (writes.foldl (fun h2 w => writeAddr h2 w.1 w.2) h).mem a = h.mem a := by
  induction writes with
  | nil =>
    intro h a _
    rfl
  | cons w ws ih =>
    intro h a hw
    have h1 : w.1 ≠ a := hw w (List.mem_cons_self w ws)
    have h2 := ih (writeAddr h w.1 w.2) a
      (fun x hx => hw x (List.mem_cons_of_mem w hx))
    rw [List.foldl_cons, h2]
    have h3 : a ≠ w.1 := fun he => h1 he.symm
    simp [writeAddr, h3]

/-- C10: `__init__` deep-copies the configuration and the schema before the
base-class initializer runs, so the copies live at fresh addresses distinct
from the caller's objects and still hold the caller's values as of the
constructor call, whatever in-place mutations of the original config or
schema the base initializer performs. -/
theorem copies_precede_base_init (h : Heap) (config schema : Nat)
    (base_writes : List (Nat × Value)) (vc vs : Value)
    (hc : config < h.next) (hs : schema < h.next)
    (hvc : h.mem config = some vc) (hvs : h.mem schema = some vs)
    (hw : ∀ w ∈ base_writes, w.1 = config ∨ w.1 = schema) :
    (smartScraperInit h config schema base_writes).copy_config ≠ config ∧
    (smartScraperInit h config schema base_writes).copy_config ≠ schema ∧
    (smartScraperInit h config schema base_writes).copy_schema ≠ config ∧
    (smartScraperInit h config schema base_writes).copy_schema ≠ schema ∧
    (smartScraperInit h config schema base_writes).heap.mem
      (smartScraperInit h config schema base_writes).copy_config = some vc ∧
    (smartScraperInit h config schema base_writes).heap.mem
      (smartScraperInit h config schema base_writes).copy_schema = some vs := by
  have hwa : ∀ w ∈ base_writes, w.1 ≠ h.next := by
    intro w hw2
    rcases hw w hw2 with h1 | h1 <;> omega
  have hwb : ∀ w ∈ base_writes, w.1 ≠ h.next + 1 := by
    intro w hw2
    rcases hw w hw2 with h1 | h1 <;> omega
  refine ⟨by show h.next ≠ config; omega, by show h.next ≠ schema; omega,
    by show h.next + 1 ≠ config; omega, by show h.next + 1 ≠ schema; omega,
    ?_, ?_⟩
  · show (base_writes.foldl (fun h2 w => writeAddr h2 w.1 w.2)
      (copyPair h config schema).2).mem h.next = some vc
    rw [foldl_writeAddr_untouched base_writes _ h.next hwa]
    exact copyPair_mem_config h config schema vc hvc
  · show (base_writes.foldl (fun h2 w => writeAddr h2 w.1 w.2)
      (copyPair h config schema).2).mem (h.next + 1) = some vs
    rw [foldl_writeAddr_untouched base_writes _ (h.next + 1) hwb]
    exact copyPair_mem_schema h config schema vs hs hvs

/-- Witness for C10 at the concrete two-object heap: the base initializer
overwrites the original config at address 0, yet both copies still hold
the values from the moment of the constructor call. -/
theorem copies_precede_base_init_witness :
    (smartScraperInit sampleHeap 0 1 [(0, Value.num 9)]).copy_config ≠ 0 ∧
    (smartScraperInit sampleHeap 0 1 [(0, Value.num 9)]).heap.mem
      (smartScraperInit sampleHeap 0 1 [(0, Value.num 9)]).copy_config =
        some (Value.num 1) ∧
    (smartScraperInit sampleHeap 0 1 [(0, Value.num 9)]).heap.mem
      (smartScraperInit sampleHeap 0 1 [(0, Value.num 9)]).copy_schema =
        some (Value.num 2) := by
  have h := copies_precede_base_init sampleHeap 0 1 [(0, Value.num 9)]
    (Value.num 1) (Value.num 2) (by decide) (by decide) rfl rfl
    (by intro w hw; simp at hw; subst hw; left; rfl)
  exact ⟨h.1, h.2.2.2.2.1, h.2.2.2.2.2⟩

/-- Membership in a node's successor list is exactly having a declared
edge from that node. -/
theorem mem_successors (g : Graph) (c n : NodeId) :
    n ∈ successors g c ↔ (c, n) ∈ g.edges := by
  unfold successors
  constructor
  · intro h
    obtain ⟨e, he, hen⟩ := List.mem_map.mp h
    obtain ⟨he1, he2⟩ := List.mem_filter.mp he
    have hec : e.1 = c := by simpa using he2
    have he3 : e = (c, n) := Prod.ext hec hen
    rw [← he3]
    exact he1
  · intro h
    refine List.mem_map.mpr ⟨(c, n), List.mem_filter.mpr ⟨h, ?_⟩, rfl⟩
    simp

/-- Running a new node moves its out-edges out of the unvisited
potential. -/
theorem unvisitedPotential_cons (g : Graph) (c : NodeId)
    (visited : List NodeId) (hc : c ∉ visited) :
    unvisitedPotential g visited =
      unvisitedPotential g (c :: visited) + (successors g c).length := by
  unfold unvisitedPotential
  have hset : (Finset.univ.filter (fun n : NodeId => n ∉ c :: visited)) =
      (Finset.univ.filter (fun n : NodeId => n ∉ visited)).erase c := by
    ext n
    simp only [Finset.mem_filter, Finset.mem_univ, true_and, Finset.mem_erase,
      List.mem_cons]
    constructor
    · intro h
      push_neg at h
      exact ⟨h.1, h.2⟩
    · intro h
      push_neg
      exact ⟨h.1, h.2⟩
  rw [hset]
  have hcf : c ∈ Finset.univ.filter (fun n : NodeId => n ∉ visited) := by
    simp [hc]
  exact (Finset.sum_erase_add _ _ hcf).symm

/-- The traversal never records a node twice. -/
theorem traverseAux_nodup (g : Graph) :
    ∀ (fuel : Nat) (queue visited : List NodeId), visited.Nodup →
      (traverseAux g fuel queue visited).Nodup := by
  intro fuel
  induction fuel with
  | zero =>
    intro queue visited h
    simpa [traverseAux, List.nodup_reverse] using h
  | succ fuel ih =>
    intro queue visited h
    cases queue with
    | nil => simpa [traverseAux, List.nodup_reverse] using h
    | cons c queue =>
      by_cases hc : c ∈ visited
      · simpa [traverseAux, hc] using ih queue visited h
      · have h2 : (c :: visited).Nodup := by simp [List.nodup_cons, hc, h]
        simpa [traverseAux, hc] using
          ih (queue ++ successors g c) (c :: visited) h2

/-- Every node the traversal records is reachable, provided the starting
queue and visited list hold only reachable nodes. -/
theorem traverseAux_sound (g : Graph) :
    ∀ (fuel : Nat) (queue visited : List NodeId),
      (∀ n ∈ visited, Reachable g n) → (∀ n ∈ queue, Reachable g n) →
      ∀ n ∈ traverseAux g fuel queue visited, Reachable g n := by
  intro fuel
  induction fuel with
  | zero =>
    intro queue visited hv _ n hn
    have hn2 : n ∈ visited.reverse := hn
    exact hv n (List.mem_reverse.mp hn2)
  | succ fuel ih =>
    intro queue visited hv hq n hn
    cases queue with
    | nil =>
      have hn2 : n ∈ visited.reverse := hn
      exact hv n (List.mem_reverse.mp hn2)
    | cons c queue =>
      by_cases hc : c ∈ visited
      · have hn2 : n ∈ traverseAux g fuel queue visited := by
          simpa [traverseAux, hc] using hn
        exact ih queue visited hv
          (fun m hm => hq m (List.mem_cons_of_mem c hm)) n hn2
      · have hn2 : n ∈ traverseAux g fuel (queue ++ successors g c)
            (c :: visited) := by
          simpa [traverseAux, hc] using hn
        have hvc : ∀ m ∈ c :: visited, Reachable g m := by
          intro m hm
          rcases List.mem_cons.mp hm with h1 | h2
          · rw [h1]
            exact hq c (List.mem_cons_self c queue)
          · exact hv m h2
        have hqc : ∀ m ∈ queue ++ successors g c, Reachable g m := by
          intro m hm
          rcases List.mem_append.mp hm with h1 | h2
          · exact hq m (List.mem_cons_of_mem c h1)
          · exact Relation.ReflTransGen.tail
              (hq c (List.mem_cons_self c queue))
              ((mem_successors g c m).mp h2)
        exact ih (queue ++ successors g c) (c :: visited) hvc hqc n hn2

/-- A visited list that contains the entry point and is closed under
declared edges contains every reachable node. -/
theorem visited_closed_complete (g : Graph) (visited : List NodeId)
    (hclosed : ∀ a ∈ visited, ∀ b ∈ successors g a, b ∈ visited)
    (hentry : g.entry_point ∈ visited) :
    ∀ n, Reachable g n → n ∈ visited := by
  intro n hreach
  have hreach2 : Relation.ReflTransGen (fun a b => (a, b) ∈ g.edges)
      g.entry_point n := hreach
  clear hreach
  induction hreach2 with
  | refl => exact hentry
  | tail h1 h2 ih => exact hclosed _ ih _ ((mem_successors g _ _).mpr h2)

/-- With enough fuel, the traversal records every reachable node: the
fuel bound, the closure of the visited list up to the queue, and the entry
point being scheduled are maintained by every loop turn. -/
theorem traverseAux_complete (g : Graph) :
    ∀ (fuel : Nat) (queue visited : List NodeId),
      queue.length + unvisitedPotential g visited ≤ fuel →
      (∀ a ∈ visited, ∀ b ∈ successors g a, b ∈ visited ∨ b ∈ queue) →
      (g.entry_point ∈ visited ∨ g.entry_point ∈ queue) →
      ∀ n, Reachable g n → n ∈ traverseAux g fuel queue visited := by
  intro fuel
  induction fuel with
  | zero =>
    intro queue visited hfuel hclosed hentry n hreach
    have hq : queue = [] := List.length_eq_zero.mp (by omega)
    subst hq
    have hentry2 : g.entry_point ∈ visited := by
      rcases hentry with h | h
      · exact h
      · simp at h
    have hclosed2 : ∀ a ∈ visited, ∀ b ∈ successors g a, b ∈ visited := by
      intro a ha b hb
      rcases hclosed a ha b hb with h | h
      · exact h
      · simp at h
    have hmem := visited_closed_complete g visited hclosed2 hentry2 n hreach
    show n ∈ visited.reverse
    exact List.mem_reverse.mpr hmem
  | succ fuel ih =>
    intro queue visited hfuel hclosed hentry n hreach
    cases queue with
    | nil =>
      have hentry2 : g.entry_point ∈ visited := by
        rcases hentry with h | h
        · exact h
        · simp at h
      have hclosed2 : ∀ a ∈ visited, ∀ b ∈ successors g a, b ∈ visited := by
        intro a ha b hb
        rcases hclosed a ha b hb with h | h
        · exact h
        · simp at h
      have hmem := visited_closed_complete g visited hclosed2 hentry2 n hreach
      show n ∈ visited.reverse
      exact List.mem_reverse.mpr hmem
    | cons c queue =>
      by_cases hc : c ∈ visited
      · have hlen : (c :: queue).length = queue.length + 1 := by simp
        have hfuel2 : queue.length + unvisitedPotential g visited ≤ fuel := by
          omega
        have hclosed2 : ∀ a ∈ visited, ∀ b ∈ successors g a,
            b ∈ visited ∨ b ∈ queue := by
          intro a ha b hb
          rcases hclosed a ha b hb with h | h
          · exact Or.inl h
          · rcases List.mem_cons.mp h with h1 | h2
            · refine Or.inl ?_
              rw [h1]
              exact hc
            · exact Or.inr h2
        have hentry2 : g.entry_point ∈ visited ∨ g.entry_point ∈ queue := by
          rcases hentry with h | h
          · exact Or.inl h
          · rcases List.mem_cons.mp h with h1 | h2
            · refine Or.inl ?_
              rw [h1]
              exact hc
            · exact Or.inr h2
        have hres := ih queue visited hfuel2 hclosed2 hentry2 n hreach
        simpa [traverseAux, hc] using hres
      · have hpot := unvisitedPotential_cons g c visited hc
        have hlen1 : (c :: queue).length = queue.length + 1 := by simp
        have hlen2 : (queue ++ successors g c).length =
            queue.length + (successors g c).length := by simp
        have hfuel2 : (queue ++ successors g c).length +
            unvisitedPotential g (c :: visited) ≤ fuel := by
          omega
        have hclosed2 : ∀ a ∈ c :: visited, ∀ b ∈ successors g a,
            b ∈ c :: visited ∨ b ∈ queue ++ successors g c := by
          intro a ha b hb
          rcases List.mem_cons.mp ha with h1 | h2
          · refine Or.inr (List.mem_append.mpr (Or.inr ?_))
            rw [← h1]
            exact hb
          · rcases hclosed a h2 b hb with h3 | h4
            · exact Or.inl (List.mem_cons_of_mem c h3)
            · rcases List.mem_cons.mp h4 with h5 | h6
              · refine Or.inl ?_
                rw [h5]
                exact List.mem_cons_self c visited
              · exact Or.inr (List.mem_append.mpr (Or.inl h6))
        have hentry2 : g.entry_point ∈ c :: visited ∨
            g.entry_point ∈ queue ++ successors g c := by
          rcases hentry with h | h
          · exact Or.inl (List.mem_cons_of_mem c h)
          · rcases List.mem_cons.mp h with h1 | h2
            · refine Or.inl ?_
              rw [h1]
              exact List.mem_cons_self c visited
            · exact Or.inr (List.mem_append.mpr (Or.inl h2))
        have hres := ih (queue ++ successors g c) (c :: visited) hfuel2
          hclosed2 hentry2 n hreach
        simpa [traverseAux, hc] using hres

/-- Transfer of the in-edge-precedes invariant from the visited list (most
recent first) to the recorded execution order. -/
theorem preceded_of_reverse (g : Graph) (visited : List NodeId)
    (hvis : ∀ v1 b v2, visited = v1 ++ b :: v2 → b ≠ g.entry_point →
      ∃ a ∈ v2, (a, b) ∈ g.edges) :
    PrecededBy g visited.reverse := by
  intro r1 b r2 hsplit hb
  have hv : visited = r2.reverse ++ b :: r1.reverse := by
    have h2 := congrArg List.reverse hsplit
    simpa [List.reverse_append] using h2
  obtain ⟨a, ha, hedge⟩ := hvis r2.reverse b r1.reverse hv hb
  exact ⟨a, List.mem_reverse.mp ha, hedge⟩

/-- Every node the traversal records after the entry point is preceded by
the source of one of its in-edges. -/
theorem traverseAux_preceded (g : Graph) :
    ∀ (fuel : Nat) (queue visited : List NodeId),
      (∀ b ∈ queue, b = g.entry_point ∨ ∃ a ∈ visited, (a, b) ∈ g.edges) →
      (∀ v1 b v2, visited = v1 ++ b :: v2 → b ≠ g.entry_point →
        ∃ a ∈ v2, (a, b) ∈ g.edges) →
      PrecededBy g (traverseAux g fuel queue visited) := by
  intro fuel
  induction fuel with
  | zero =>
    intro queue visited _ hvis
    exact preceded_of_reverse g visited hvis
  | succ fuel ih =>
    intro queue visited hq hvis
    cases queue with
    | nil => exact preceded_of_reverse g visited hvis
    | cons c queue =>
      by_cases hc : c ∈ visited
      · have hq2 : ∀ b ∈ queue, b = g.entry_point ∨
            ∃ a ∈ visited, (a, b) ∈ g.edges :=
          fun b hb => hq b (List.mem_cons_of_mem c hb)
        have hres := ih queue visited hq2 hvis
        simpa [traverseAux, hc] using hres
      · have hq2 : ∀ b ∈ queue ++ successors g c, b = g.entry_point ∨
            ∃ a ∈ c :: visited, (a, b) ∈ g.edges := by
          intro b hb
          rcases List.mem_append.mp hb with h1 | h2
          · rcases hq b (List.mem_cons_of_mem c h1) with h3 | ⟨a, ha, hedge⟩
            · exact Or.inl h3
            · exact Or.inr ⟨a, List.mem_cons_of_mem c ha, hedge⟩
          · exact Or.inr ⟨c, List.mem_cons_self c visited,
              (mem_successors g c b).mp h2⟩
        have hvis2 : ∀ v1 b v2, c :: visited = v1 ++ b :: v2 →
            b ≠ g.entry_point → ∃ a ∈ v2, (a, b) ∈ g.edges := by
          intro v1 b v2 hsplit hb
          cases v1 with
          | nil =>
            have h1 : c = b ∧ visited = v2 := by simpa using hsplit
            rcases hq c (List.mem_cons_self c queue) with h3 | ⟨a, ha, hedge⟩
            · exact absurd (h1.1.symm.trans h3) hb
            · refine ⟨a, ?_, ?_⟩
              · rw [← h1.2]
                exact ha
              · rw [← h1.1]
                exact hedge
          | cons x v1' =>
            have h1 : c = x ∧ visited = v1' ++ b :: v2 := by simpa using hsplit
            exact hvis v1' b v2 h1.2 hb
        have hres := ih (queue ++ successors g c) (c :: visited) hq2 hvis2
        simpa [traverseAux, hc] using hres

/-- C5: the spec-4.1 `execute` loop works through a queue seeded with the
entry point, running each dequeued node once and appending the
destinations of all its declared out-edges in declaration order. For every
graph, one run executes exactly the nodes reachable from the entry point
along declared edges, each exactly once, and every executed non-entry node
is preceded by the source of one of its in-edges; in particular for the
graph built by `_create_graph` the `GraphIteratorNode` runs first and the
`MergeAnswersNode` second, each exactly once per `run()` call. -/
theorem execute_runs_reachable_once (g : Graph) :
    (∀ n, n ∈ execOrder g ↔ Reachable g n) ∧
    (execOrder g).Nodup ∧
    PrecededBy g (execOrder g) ∧
    execOrder _create_graph = [NodeId.graphIterator, NodeId.mergeAnswers] := by
  refine ⟨?_, ?_, ?_, ?_⟩
  · intro n
    constructor
    · intro hmem
      refine traverseAux_sound g (1 + unvisitedPotential g [])
        [g.entry_point] [] ?_ ?_ n hmem
      · intro m hm
        simp at hm
      · intro m hm
        have hm2 : m = g.entry_point := by simpa using hm
        rw [hm2]
        exact Relation.ReflTransGen.refl
    · intro hreach
      refine traverseAux_complete g (1 + unvisitedPotential g [])
        [g.entry_point] [] ?_ ?_ ?_ n hreach
      · simp
      · intro a ha
        simp at ha
      · exact Or.inr (List.mem_cons_self _ _)
  · exact traverseAux_nodup g (1 + unvisitedPotential g [])
      [g.entry_point] [] List.nodup_nil
  · refine traverseAux_preceded g (1 + unvisitedPotential g [])
      [g.entry_point] [] ?_ ?_
    · intro b hb
      exact Or.inl (by simpa using hb)
    · intro v1 b v2 hsplit hb
      have hlen := congrArg List.length hsplit
      simp [List.length_append] at hlen
      omega
  · decide

/-- Witness for C5 on the graph `_create_graph` builds: the execution
order is exactly iterator then merge, without repetition, and the merge
node is reachable from the entry point along the declared edge. -/
theorem execute_runs_reachable_once_witness :
    (execOrder _create_graph).Nodup ∧
    execOrder _create_graph = [NodeId.graphIterator, NodeId.mergeAnswers] ∧
    Reachable _create_graph NodeId.mergeAnswers := by
  have h := execute_runs_reachable_once _create_graph
  exact ⟨h.2.1, h.2.2.2, (h.1 NodeId.mergeAnswers).mp (by decide)⟩
end ScrapeGraph
